import Mathlib

set_option maxRecDepth 100000

/-!
Verification of the junction-detection-and-splitting engine of
`read_fillet/split_reads_on_adapter.py`.

Sequences are modelled as `List Char`, Python integers as `Int`, and Python
slice semantics (`seq[a:b]` with negative-index wrap-around and clamping) are
reproduced exactly by `pyBound`/`pySlice`.  The external approximate-matching
primitive (edlib) is abstracted as a function argument producing an
`AlignResult`, mirroring the consumed contract: an edit distance, an optional
alignment path (cigar), and a list of (start, end) offsets.
-/

/-- Python slice-bound normalisation for a sequence of length `n`:
a negative index counts from the end and clamps at 0, a non-negative
index clamps at `n`. -/
def pyBound (n : Nat) (i : Int) : Nat :=
  if i < 0 then ((n : Int) + i).toNat else min i.toNat n

/-- Python `l[a:b]` (step 1). -/
def pySlice (l : List α) (a b : Int) : List α :=
  (l.take (pyBound l.length b)).drop (pyBound l.length a)

/-- Python `l[:b]`. -/
def pyTakeTo (l : List α) (b : Int) : List α :=
  l.take (pyBound l.length b)

/-- Python `l[a:]`. -/
def pyDropFrom (l : List α) (a : Int) : List α :=
  l.drop (pyBound l.length a)

/-- Source: `rev_comp = lambda seq: str.translate(seq, str.maketrans('ACGT', 'TGCA'))[::-1]`. -/
def compBase (c : Char) : Char :=
  if c = 'A' then 'T' else if c = 'C' then 'G'
  else if c = 'G' then 'C' else if c = 'T' then 'A' else c

def rev_comp (seq : List Char) : List Char :=
  (seq.map compBase).reverse

/-- Source: `EDIT_THRESHOLDS = {'PCR': 45, 'Native': 9}`. -/
def EDIT_THRESHOLDS (type : String) : Int :=
  if type = "PCR" then 45 else 9

def mask_size_default_head : Nat := 5
def mask_size_default_tail : Nat := 14
def mask_size_default_N : Nat := 11

def HEAD_ADAPTER : List Char := "AATGTACTTCGTTCAGTTACGTATTGCT".toList
def TAIL_ADAPTER : List Char := "GCAATACGTAACTGAACGAAGT".toList

def default_pcr_primers : List (List Char) :=
  ["ACTTGCCTGTCGCTCTATCTTCGGCGTCTGCTTGGGTGTTTAACC".toList,
   "TTTCTGTTGGTGCTGATATTGCGGCGTCTGCTTGGGTGTTTAACCT".toList]

/-- The two target lists built by `build_targets` (the Python dict keyed by
`'Native'` and `'PCR'`). -/
structure Targets where
  native : List (List Char)
  pcr : List (List Char)
  deriving Repr, DecidableEq

/-- Source: `build_targets` (lines 69-95).  `degenerate_bases = None` defaults
to the sum of the two mask sizes; `n_replacement`, when given, replaces the
degenerate-N spacer. -/
def build_targets (n_bases_to_mask_head n_bases_to_mask_tail : Nat)
    (degenerate_bases : Option Nat) (pcr_primers : List (List Char))
    (head_adapter tail_adapter : List Char)
    (n_replacement : Option (List Char)) : Targets :=
  let db := degenerate_bases.getD (n_bases_to_mask_head + n_bases_to_mask_tail)
  let middle_sequence :=
    match n_replacement with
    | none => List.replicate db 'N'
    | some r => r
  { native := [pyTakeTo tail_adapter ((tail_adapter.length : Int) - n_bases_to_mask_tail) ++
               middle_sequence ++
               pyDropFrom head_adapter (n_bases_to_mask_head : Int)],
    pcr := pcr_primers.flatMap (fun x => pcr_primers.map (fun y =>
        rev_comp x ++
        pyTakeTo tail_adapter (-(n_bases_to_mask_tail : Int)) ++
        middle_sequence ++
        pyDropFrom head_adapter (n_bases_to_mask_head : Int) ++ y)) }

/-- Result of the external approximate matcher (edlib), per the consumed
contract: edit distance, optional alignment path, list of (start, end)
offsets into the text it was given. -/
structure AlignResult where
  editDistance : Int
  cigar : Option (List Char)
  locations : List (Int × Int)
  deriving Repr, DecidableEq

/-- First index of the minimum of a list (the semantics of `np.argmin`). -/
def argminIdx : List Int → Nat
  | [] => 0
  | [_] => 0
  | a :: b :: rest =>
    if a ≤ (b :: rest).getD (argminIdx (b :: rest)) 0 then 0
    else argminIdx (b :: rest) + 1

/-- Source: `find_mid_adaptor` (lines 98-115).  The read is stripped of its
first and last 200 bases, each target is aligned against the interior by the
external primitive `alignFn`, the result with the smallest edit distance is
selected (`np.argmin`: first index on ties), and, when an alignment path is
present, its locations are re-expressed in full-read coordinates by adding
the 200-base trim to both components.  The `print_alignment` branch of the
source is pure diagnostics and does not affect the returned value. -/
def find_mid_adaptor (alignFn : List Char → List Char → AlignResult)
    (seq : List Char) (targets : List (List Char)) : AlignResult :=
  let trim : Int := 200
  let interior := pySlice seq trim (-trim)
  let results := targets.map (fun t => alignFn t interior)
  let i := argminIdx (results.map (fun r => r.editDistance))
  let res := results.getD i ⟨0, none, []⟩
  if res.cigar.isSome then
    { res with locations := res.locations.map (fun p => (p.1 + trim, p.2 + trim)) }
  else res

/-- Python floor division `//` on integers. -/
def pyFloorDiv (a b : Int) : Int := Int.fdiv a b

/-- Source: `write_match_to_fasta`, local `matchlen // 2`. -/
def wmf_matchlen_half (start endpos : Int) : Int := pyFloorDiv (endpos - start) 2

/-- Source: `seq_left = seq[(start + matchlen_half - 100):start]`. -/
def wmf_left (seq : List Char) (start endpos : Int) : List Char :=
  pySlice seq (start + wmf_matchlen_half start endpos - 100) start

/-- Source: `seq_mid = seq[start:end]`. -/
def wmf_mid (seq : List Char) (start endpos : Int) : List Char :=
  pySlice seq start endpos

/-- Source: `seq_right = seq[end:(end - matchlen_half + 100)]`. -/
def wmf_right (seq : List Char) (start endpos : Int) : List Char :=
  pySlice seq endpos (endpos - wmf_matchlen_half start endpos + 100)

/-- The left context the debug window is meant to carry per the spec: up to
100 - matchlen//2 bases immediately preceding `start`, clamped at the
sequence start. -/
def wmf_intended_left (seq : List Char) (start endpos : Int) : List Char :=
  pySlice seq (max 0 (start + wmf_matchlen_half start endpos - 100)) start

/-- Source: `write_match_to_fasta` (lines 118-126).  Returns the record body
written to the side fasta, or `none` when the assembled window is empty and
nothing is written. -/
def write_match_to_fasta (seq : List Char) (start endpos : Int) : Option (List Char) :=
  let fullseq := wmf_left seq start endpos ++ wmf_mid seq start endpos ++ wmf_right seq start endpos
  if 0 < fullseq.length then some fullseq else none

/-- One Python dict assignment `d[x] = y` on an insertion-ordered
association list: overwriting keeps the key's original position. -/
def dictInsert (d : List (Int × Int)) (x y : Int) : List (Int × Int) :=
  if d.any (fun q => q.1 == x) then
    d.map (fun q => if q.1 == x then (x, y) else q)
  else d ++ [(x, y)]

/-- The Python dict comprehension `{x: y for x, y in ps}` as an
insertion-ordered association list. -/
def dictOfPairs (ps : List (Int × Int)) : List (Int × Int) :=
  ps.foldl (fun d p => dictInsert d p.1 p.2) []

/-- Lexicographic order on Int pairs: how Python `sorted` compares tuples. -/
def pairLe (p q : Int × Int) : Prop :=
  p.1 < q.1 ∨ (p.1 = q.1 ∧ p.2 ≤ q.2)

instance : DecidableRel pairLe := fun p q => by
  unfold pairLe; infer_instance

instance : IsTotal (Int × Int) pairLe := by
  constructor; intro a b; unfold pairLe; omega

instance : IsTrans (Int × Int) pairLe := by
  constructor; intro a b c hab hbc; unfold pairLe at *; omega

/-- Source: `deduplicate_locations_first_key` (lines 129-131):
`sorted(list({x: y for x, y in reversed(result['locations'])}.items()))`.
The dict is built from the reversed list, so for a repeated start the value
kept is the one from the first entry in original order; the items are then
sorted (Python tuple order; keys are distinct, so by start offset - on the
dict's always-distinct keys `insertionSort pairLe` computes exactly what
Python's stable lexicographic `sorted` does). -/
def deduplicate_locations_first_key (locations : List (Int × Int)) : List (Int × Int) :=
  List.insertionSort pairLe (dictOfPairs locations.reverse)

/-- One input record: id, sequence, quality, comment, as yielded by `Fastx`. -/
structure Read where
  id : String
  seq : List Char
  qual : List Char
  comments : String
  deriving Repr, DecidableEq

/-- One output fastq record `@id comments / seq / + / qual`. -/
structure Record where
  id : String
  comments : String
  seq : List Char
  qual : List Char
  deriving Repr, DecidableEq

/-- The per-read decision taken by the body of the loop in `process_file`. -/
inductive Decision where
  | unedited
  | ambiguous
  | split (start endpos : Int)
  deriving Repr, DecidableEq

/-- Decision logic of `process_file` (lines 161-178): strict `<` against the
threshold; then deduplication; more than one location flags the read as
split-multiple-times; exactly one location splits it.  `none` models the
`ValueError` Python would raise on unpacking an empty location list. -/
def decideRead (edit_threshold : Int) (result : AlignResult) : Option Decision :=
  if result.editDistance < edit_threshold then
    let locs := deduplicate_locations_first_key result.locations
    if locs.length > 1 then some Decision.ambiguous
    else
      match locs with
      | [(s, e)] => some (Decision.split s e)
      | _ => none
  else some Decision.unedited

/-- The records written to the output file for one read under a decision
(lines 164, 172-175, 177 of the source). -/
def emit (r : Read) (d : Decision) : List Record :=
  match d with
  | Decision.unedited => [⟨r.id, r.comments, r.seq, r.qual⟩]
  | Decision.ambiguous => [⟨r.id, r.comments, r.seq, r.qual⟩]
  | Decision.split s e =>
      [⟨r.id ++ "_1", r.comments, pyTakeTo r.seq s, pyTakeTo r.qual s⟩,
       ⟨r.id ++ "_2", r.comments, pyDropFrom r.seq e, pyDropFrom r.qual e⟩]

/-- Source: `process_file` (lines 134-181): stream the reads of one file
through `find_mid_adaptor` and the decision logic, accumulating the three
per-file outcome sets (modelled as lists) and the written records.  `none`
models an uncaught per-read exception aborting the file. -/
def process_file (alignFn : List Char → List Char → AlignResult)
    (targets : List (List Char)) (edit_threshold : Int) :
    List Read → Option (List String × List String × List String × List Record)
  | [] => some ([], [], [], [])
  | r :: rest =>
    match decideRead edit_threshold (find_mid_adaptor alignFn r.seq targets) with
    | none => none
    | some d =>
      match process_file alignFn targets edit_threshold rest with
      | none => none
      | some (e, u, m, recs) =>
        match d with
        | Decision.unedited => some (e, r.id :: u, m, emit r d ++ recs)
        | Decision.ambiguous => some (e, u, r.id :: m, emit r d ++ recs)
        | Decision.split _ _ => some (r.id :: e, u, m, emit r d ++ recs)

/-- Source: `split` (lines 237-242): the per-file outcome sets of every input
file are unioned into the three process-wide sets after all workers join. -/
def run_outcomes (alignFn : List Char → List Char → AlignResult)
    (targets : List (List Char)) (edit_threshold : Int) :
    List (List Read) → Option (List String × List String × List String)
  | [] => some ([], [], [])
  | f :: rest =>
    match process_file alignFn targets edit_threshold f with
    | none => none
    | some (e, u, m, _) =>
      match run_outcomes alignFn targets edit_threshold rest with
      | none => none
      | some (e2, u2, m2) => some (e ++ e2, u ++ u2, m ++ m2)

/-- Targets as built by the top-level `split` entry point with its default
arguments: `split` always passes its `degenerate_bases` parameter (default
`mask_size_default_N = 11`) to `build_targets`, so the spacer-length
override is in effect on this path. -/
def split_default_targets : Targets :=
  build_targets mask_size_default_head mask_size_default_tail
    (some mask_size_default_N) default_pcr_primers HEAD_ADAPTER TAIL_ADAPTER none

/-- Observable top-level actions of `split` (lines 211-252), in program
order. -/
inductive SAction where
  | listFiles
  | exit1
  | mkdirOut (d : String)
  | buildTargetsStep
  | processFileStep (f : String)
  | summary
  deriving Repr, DecidableEq

/-- Control flow of `split` (lines 211-252): input files are enumerated,
then, if an output directory is requested, it is created, or - if it already
exists - an error is reported and the process exits with status 1 before
targets are built or any file is processed; otherwise targets are built,
every file is processed, and the summary is printed. -/
def split_actions (files : List String) (output_dir : Option String)
    (outputDirExists : Bool) : List SAction :=
  SAction.listFiles ::
    (match output_dir with
     | some d =>
         if outputDirExists then [SAction.exit1]
         else SAction.mkdirOut d :: SAction.buildTargetsStep ::
              (files.map SAction.processFileStep ++ [SAction.summary])
     | none => SAction.buildTargetsStep ::
              (files.map SAction.processFileStep ++ [SAction.summary]))

/-- The per-target results computed inside `find_mid_adaptor`. -/
def fma_results (alignFn : List Char → List Char → AlignResult)
    (seq : List Char) (targets : List (List Char)) : List AlignResult :=
  targets.map (fun t => alignFn t (pySlice seq 200 (-200)))

/-- The `np.argmin` index computed inside `find_mid_adaptor`. -/
def fma_index (alignFn : List Char → List Char → AlignResult)
    (seq : List Char) (targets : List (List Char)) : Nat :=
  argminIdx ((fma_results alignFn seq targets).map (fun r => r.editDistance))

/-! ### Python slice lemmas -/

theorem pyBound_of_nonneg {n : Nat} {i : Int} (h : 0 ≤ i) :
    pyBound n i = min i.toNat n := by
  unfold pyBound
  rw [if_neg (by omega)]

theorem pyBound_of_le {n : Nat} {i : Int} (h0 : 0 ≤ i) (h1 : i ≤ n) :
    pyBound n i = i.toNat := by
  rw [pyBound_of_nonneg h0]
  exact Nat.min_eq_left (by omega)

theorem pyBound_of_neg {n : Nat} {i : Int} (h : i < 0) :
    pyBound n i = ((n : Int) + i).toNat := by
  unfold pyBound
  rw [if_pos h]

theorem pyTakeTo_eq {l : List α} {b : Int} (h0 : 0 ≤ b) (h1 : b ≤ l.length) :
    pyTakeTo l b = l.take b.toNat := by
  unfold pyTakeTo
  rw [pyBound_of_le h0 h1]

theorem pyDropFrom_eq {l : List α} {a : Int} (h0 : 0 ≤ a) (h1 : a ≤ l.length) :
    pyDropFrom l a = l.drop a.toNat := by
  unfold pyDropFrom
  rw [pyBound_of_le h0 h1]

theorem pySlice_eq {l : List α} {a b : Int} (ha0 : 0 ≤ a) (hb1 : b ≤ l.length)
    (hab : a ≤ b) :
    pySlice l a b = (l.take b.toNat).drop a.toNat := by
  unfold pySlice
  rw [pyBound_of_le ha0 (le_trans hab hb1), pyBound_of_le (le_trans ha0 hab) hb1]

theorem pySlice_length (l : List α) (a b : Int) :
    (pySlice l a b).length = min (pyBound l.length b) l.length - pyBound l.length a := by
  simp [pySlice]

/-! ### Claim C3: the two derived reads of a Split decision -/

/-- Claim C3: for a Split decision with offsets (start, end) on a read of
length L, the two derived reads are left = original[:start] with id suffix
"_1" and right = original[end:] with id suffix "_2", both with the original
comment and correspondingly sliced quality; their lengths add to
L - (end - start), and left + original[start:end] + right reconstructs the
original sequence (and the quality string) exactly. -/
theorem c3_split_roundtrip (r : Read) (s e : Int)
    (h0 : 0 ≤ s) (h1 : s ≤ e) (h2 : e ≤ (r.seq.length : Int))
    (hq : r.qual.length = r.seq.length) :
    emit r (Decision.split s e) =
      [⟨r.id ++ "_1", r.comments, pyTakeTo r.seq s, pyTakeTo r.qual s⟩,
       ⟨r.id ++ "_2", r.comments, pyDropFrom r.seq e, pyDropFrom r.qual e⟩] ∧
    ((pyTakeTo r.seq s).length : Int) + ((pyDropFrom r.seq e).length : Int)
      = (r.seq.length : Int) - (e - s) ∧
    ((pyTakeTo r.qual s).length : Int) + ((pyDropFrom r.qual e).length : Int)
      = (r.qual.length : Int) - (e - s) ∧
    pyTakeTo r.seq s ++ pySlice r.seq s e ++ pyDropFrom r.seq e = r.seq ∧
    pyTakeTo r.qual s ++ pySlice r.qual s e ++ pyDropFrom r.qual e = r.qual := by
  have hsl : s ≤ (r.seq.length : Int) := le_trans h1 h2
  have hql : e ≤ (r.qual.length : Int) := by rw [hq]; exact h2
  have hsq : s ≤ (r.qual.length : Int) := le_trans h1 hql
  have reconstruct : ∀ (l : List Char), s ≤ (l.length : Int) → e ≤ (l.length : Int) →
      pyTakeTo l s ++ pySlice l s e ++ pyDropFrom l e = l := by
    intro l hs he
    rw [pyTakeTo_eq h0 hs, pySlice_eq h0 he h1, pyDropFrom_eq (le_trans h0 h1) he]
    have htt : (l.take e.toNat).take s.toNat = l.take s.toNat := by
      rw [List.take_take]
      congr 1
      omega
    calc l.take s.toNat ++ (l.take e.toNat).drop s.toNat ++ l.drop e.toNat
        = ((l.take e.toNat).take s.toNat ++ (l.take e.toNat).drop s.toNat) ++ l.drop e.toNat := by
          rw [htt]
      _ = l.take e.toNat ++ l.drop e.toNat := by rw [List.take_append_drop]
      _ = l := List.take_append_drop _ _
  have lengths : ∀ (l : List Char), s ≤ (l.length : Int) → e ≤ (l.length : Int) →
      ((pyTakeTo l s).length : Int) + ((pyDropFrom l e).length : Int)
        = (l.length : Int) - (e - s) := by
    intro l hs he
    rw [pyTakeTo_eq h0 hs, pyDropFrom_eq (le_trans h0 h1) he]
    rw [List.length_take, List.length_drop]
    omega
  exact ⟨rfl, lengths r.seq hsl h2, lengths r.qual hsq hql,
    reconstruct r.seq hsl h2, reconstruct r.qual hsq hql⟩

/-- Witness for C3 at a concrete read of length 10 with offsets (3, 5). -/
theorem c3_split_roundtrip_witness :
    pyTakeTo "ACGTACGTAC".toList 3 ++ pySlice "ACGTACGTAC".toList 3 5 ++
      pyDropFrom "ACGTACGTAC".toList 5 = "ACGTACGTAC".toList ∧
    ((pyTakeTo "ACGTACGTAC".toList 3).length : Int) +
      ((pyDropFrom "ACGTACGTAC".toList 5).length : Int) = 10 - (5 - 3) := by
  have h := c3_split_roundtrip ⟨"r", "ACGTACGTAC".toList, "IIIIIJJJJJ".toList, "c"⟩ 3 5
    (by decide) (by decide) (by decide) (by decide)
  exact ⟨h.2.2.2.1, h.2.1⟩

/-! ### Claim C1: location deduplication -/

theorem fst_dictInsert_overwrite {d : List (Int × Int)} {x y : Int}
    (h : d.any (fun q => q.1 == x)) :
    (dictInsert d x y).map Prod.fst = d.map Prod.fst := by
  unfold dictInsert
  rw [if_pos h, List.map_map]
  apply List.map_congr_left
  intro q hq
  by_cases hqx : q.1 = x
  · simp [hqx]
  · simp [hqx]

theorem fst_dictInsert_append {d : List (Int × Int)} {x y : Int}
    (h : ¬ d.any (fun q => q.1 == x)) :
    (dictInsert d x y).map Prod.fst = d.map Prod.fst ++ [x] := by
  unfold dictInsert
  rw [if_neg h, List.map_append]
  rfl

theorem nodup_fst_dictInsert {d : List (Int × Int)} {x y : Int}
    (h : (d.map Prod.fst).Nodup) : ((dictInsert d x y).map Prod.fst).Nodup := by
  by_cases hx : d.any (fun q => q.1 == x)
  · rw [fst_dictInsert_overwrite hx]
    exact h
  · rw [fst_dictInsert_append hx]
    simp only [List.any_eq_true, beq_iff_eq, not_exists, not_and] at hx
    refine List.Nodup.append h (List.nodup_singleton x) ?_
    intro a ha hax
    rcases List.mem_map.mp ha with ⟨q, hq, rfl⟩
    rcases List.mem_singleton.mp hax with rfl
    exact (hx q hq) rfl

theorem mem_dictInsert_key {d : List (Int × Int)} (x y v : Int) :
    ((x, v) ∈ dictInsert d x y) ↔ v = y := by
  unfold dictInsert
  by_cases hx : d.any (fun q => q.1 == x)
  · rw [if_pos hx]
    simp only [List.any_eq_true, beq_iff_eq] at hx
    rcases hx with ⟨q, hq, hqx⟩
    rw [List.mem_map]
    constructor
    · rintro ⟨r, hr, hfr⟩
      by_cases hrx : r.1 = x
      · simp [hrx, Prod.ext_iff] at hfr
        exact hfr.symm
      · simp [hrx] at hfr
        subst hfr
        exact absurd rfl hrx
    · rintro rfl
      exact ⟨q, hq, by simp [hqx]⟩
  · rw [if_neg hx]
    simp only [List.any_eq_true, beq_iff_eq] at hx
    push_neg at hx
    constructor
    · intro hmem
      rcases List.mem_append.mp hmem with hmem | hmem
      · exact absurd rfl (hx _ hmem)
      · have heq : (x, v) = (x, y) := List.mem_singleton.mp hmem
        exact (Prod.mk.injEq _ _ _ _ ▸ heq).2
    · rintro rfl
      exact List.mem_append.mpr (Or.inr (List.mem_singleton.mpr rfl))

theorem mem_dictInsert_ne {d : List (Int × Int)} (k v : Int) {x y : Int}
    (hne : k ≠ x) : ((x, y) ∈ dictInsert d k v) ↔ (x, y) ∈ d := by
  unfold dictInsert
  by_cases hk : d.any (fun q => q.1 == k)
  · rw [if_pos hk, List.mem_map]
    constructor
    · rintro ⟨r, hr, hfr⟩
      by_cases hrk : r.1 = k
      · simp [hrk, Prod.ext_iff] at hfr
        exact absurd hfr.1 hne
      · simp [hrk] at hfr
        exact hfr ▸ hr
    · intro hmem
      refine ⟨(x, y), hmem, ?_⟩
      have hxk : ¬ ((x, y).1 = k) := fun h => hne h.symm
      simp [hxk]
  · rw [if_neg hk]
    constructor
    · intro hmem
      rcases List.mem_append.mp hmem with hmem | heq
      · exact hmem
      · have := List.mem_singleton.mp heq
        exact absurd ((Prod.mk.injEq _ _ _ _ ▸ this).1.symm) hne
    · intro hmem
      exact List.mem_append.mpr (Or.inl hmem)

theorem mem_foldl_dictInsert (ps : List (Int × Int)) :
    ∀ (d : List (Int × Int)) (x y : Int),
    ((x, y) ∈ ps.foldl (fun d p => dictInsert d p.1 p.2) d ↔
      (match ps.reverse.find? (fun q => q.1 == x) with
       | some q => q = (x, y)
       | none => (x, y) ∈ d)) := by
  induction ps with
  | nil =>
    intro d x y
    simp
  | cons p rest ih =>
    intro d x y
    rw [List.foldl_cons, ih (dictInsert d p.1 p.2) x y, List.reverse_cons,
      List.find?_append]
    cases hfind : rest.reverse.find? (fun q => q.1 == x) with
    | some q => simp [hfind]
    | none =>
      by_cases hpx : p.1 = x
      · subst hpx
        have hbeq : (p.1 == p.1) = true := beq_self_eq_true p.1
        simp only [hfind, Option.none_or, List.find?_cons, hbeq]
        rw [mem_dictInsert_key]
        constructor
        · rintro rfl
          rfl
        · intro h
          exact (congrArg Prod.snd h).symm
      · have hbeq : (p.1 == x) = false := by simpa using hpx
        simp only [hfind, Option.none_or, List.find?_cons, hbeq, List.find?_nil]
        rw [mem_dictInsert_ne p.1 p.2 hpx]

theorem nodup_fst_dictOfPairs (ps : List (Int × Int)) :
    ((dictOfPairs ps).map Prod.fst).Nodup := by
  unfold dictOfPairs
  have general : ∀ (d : List (Int × Int)), (d.map Prod.fst).Nodup →
      ((ps.foldl (fun d p => dictInsert d p.1 p.2) d).map Prod.fst).Nodup := by
    induction ps with
    | nil =>
      intro d hd
      simpa using hd
    | cons p rest ih =>
      intro d hd
      rw [List.foldl_cons]
      exact ih _ (nodup_fst_dictInsert hd)
  exact general [] (by simp)

theorem mem_dictOfPairs (ps : List (Int × Int)) (x y : Int) :
    ((x, y) ∈ dictOfPairs ps) ↔ ps.reverse.find? (fun q => q.1 == x) = some (x, y) := by
  rw [dictOfPairs, mem_foldl_dictInsert ps [] x y]
  cases hfind : ps.reverse.find? (fun q => q.1 == x) with
  | some q => simp
  | none => simp

/-- Claim C1: `deduplicate_locations_first_key` returns exactly one
(start, end) pair per distinct start offset of its input (the start offsets
of the result are duplicate-free and are exactly those of the input), the
end kept for a repeated start is the one of the first such entry in the
original report order (membership is equivalent to being the first entry
found for that start), the result is sorted strictly ascending by start
offset, and in particular [(5,10),(5,7),(20,25)] yields [(5,10),(20,25)]. -/
theorem c1_dedup_first_key (locs : List (Int × Int)) :
    ((deduplicate_locations_first_key locs).map Prod.fst).Nodup ∧
    (∀ x y : Int, ((x, y) ∈ deduplicate_locations_first_key locs) ↔
        locs.find? (fun q => q.1 == x) = some (x, y)) ∧
    (∀ x : Int, x ∈ (deduplicate_locations_first_key locs).map Prod.fst ↔
        x ∈ locs.map Prod.fst) ∧
    List.Pairwise (fun p q : Int × Int => p.1 < q.1)
      (deduplicate_locations_first_key locs) ∧
    deduplicate_locations_first_key [(5, 10), (5, 7), (20, 25)] = [(5, 10), (20, 25)] := by
  have hperm : (deduplicate_locations_first_key locs).Perm (dictOfPairs locs.reverse) :=
    List.perm_insertionSort _ _
  have hnodup : ((deduplicate_locations_first_key locs).map Prod.fst).Nodup :=
    ((hperm.map Prod.fst).nodup_iff).mpr (nodup_fst_dictOfPairs _)
  have hmem : ∀ x y : Int, ((x, y) ∈ deduplicate_locations_first_key locs) ↔
      locs.find? (fun q => q.1 == x) = some (x, y) := by
    intro x y
    rw [hperm.mem_iff, mem_dictOfPairs, List.reverse_reverse]
  refine ⟨hnodup, hmem, ?_, ?_, by decide⟩
  · intro x
    constructor
    · intro hx
      rcases List.mem_map.mp hx with ⟨p, hp, rfl⟩
      have hfound := (hmem p.1 p.2).mp hp
      exact List.mem_map.mpr ⟨(p.1, p.2), List.mem_of_find?_eq_some hfound, rfl⟩
    · intro hx
      rcases List.mem_map.mp hx with ⟨p, hp, rfl⟩
      have hsome : (locs.find? (fun q => q.1 == p.1)).isSome :=
        List.find?_isSome.mpr ⟨p, hp, by simp⟩
      rcases Option.isSome_iff_exists.mp hsome with ⟨q, hq⟩
      have hqx : q.1 = p.1 := by simpa using List.find?_some hq
      have hqmem : (q.1, q.2) ∈ deduplicate_locations_first_key locs := by
        rw [hmem q.1 q.2, hqx]
        exact hq.trans (congrArg some (Prod.ext_iff.mpr ⟨hqx, rfl⟩))
      exact List.mem_map.mpr ⟨(q.1, q.2), hqmem, hqx⟩
  · have hsorted : List.Sorted pairLe (deduplicate_locations_first_key locs) :=
      List.sorted_insertionSort pairLe _
    have hne : List.Pairwise (fun p q : Int × Int => p.1 ≠ q.1)
        (deduplicate_locations_first_key locs) := List.pairwise_map.mp hnodup
    refine (hsorted.and hne).imp ?_
    intro a b hab
    rcases hab with ⟨hle, hne2⟩
    unfold pairLe at hle
    omega

/-- Witness for C1 at the concrete location list of the claim. -/
theorem c1_dedup_first_key_witness :
    (((5 : Int), (10 : Int)) ∈
        deduplicate_locations_first_key [(5, 10), (5, 7), (20, 25)] ↔
      [((5 : Int), (10 : Int)), (5, 7), (20, 25)].find? (fun q => q.1 == 5)
        = some (5, 10)) ∧
    deduplicate_locations_first_key [(5, 10), (5, 7), (20, 25)] = [(5, 10), (20, 25)] :=
  ⟨(c1_dedup_first_key [(5, 10), (5, 7), (20, 25)]).2.1 5 10,
   (c1_dedup_first_key [(5, 10), (5, 7), (20, 25)]).2.2.2.2⟩

/-! ### Claim C5: best-motif selection in find_mid_adaptor -/

theorem argminIdx_lt (l : List Int) (h : l ≠ []) : argminIdx l < l.length := by
  induction l with
  | nil => exact absurd rfl h
  | cons a t ih =>
    cases t with
    | nil => simp [argminIdx]
    | cons b r =>
      show (if a ≤ (b :: r).getD (argminIdx (b :: r)) 0 then 0
            else argminIdx (b :: r) + 1) < (a :: b :: r).length
      split
      · simp
      · have := ih (by simp)
        simpa using Nat.succ_lt_succ this

theorem argminIdx_le (l : List Int) :
    ∀ j, j < l.length → l.getD (argminIdx l) 0 ≤ l.getD j 0 := by
  induction l with
  | nil =>
    intro j hj
    simp at hj
  | cons a t ih =>
    cases t with
    | nil =>
      intro j hj
      have hj0 : j = 0 := by simpa using hj
      subst hj0
      simp [argminIdx]
    | cons b r =>
      intro j hj
      by_cases hle : a ≤ (b :: r).getD (argminIdx (b :: r)) 0
      · have hidx : argminIdx (a :: b :: r) = 0 := by
          show (if a ≤ (b :: r).getD (argminIdx (b :: r)) 0 then 0
                else argminIdx (b :: r) + 1) = 0
          rw [if_pos hle]
        rw [hidx]
        cases j with
        | zero => simp
        | succ k =>
          have hk : k < (b :: r).length := by simpa using hj
          calc (a :: b :: r).getD 0 0 = a := rfl
            _ ≤ (b :: r).getD (argminIdx (b :: r)) 0 := hle
            _ ≤ (b :: r).getD k 0 := ih k hk
            _ = (a :: b :: r).getD (k + 1) 0 := by rw [List.getD_cons_succ]
      · have hidx : argminIdx (a :: b :: r) = argminIdx (b :: r) + 1 := by
          show (if a ≤ (b :: r).getD (argminIdx (b :: r)) 0 then 0
                else argminIdx (b :: r) + 1) = argminIdx (b :: r) + 1
          rw [if_neg hle]
        rw [hidx]
        cases j with
        | zero =>
          rw [List.getD_cons_succ, List.getD_cons_zero]
          omega
        | succ k =>
          have hk : k < (b :: r).length := by simpa using hj
          rw [List.getD_cons_succ, List.getD_cons_succ]
          exact ih k hk

theorem argminIdx_first (l : List Int) :
    ∀ j, j < argminIdx l → l.getD (argminIdx l) 0 < l.getD j 0 := by
  induction l with
  | nil =>
    intro j hj
    simp [argminIdx] at hj
  | cons a t ih =>
    cases t with
    | nil =>
      intro j hj
      simp [argminIdx] at hj
    | cons b r =>
      intro j hj
      by_cases hle : a ≤ (b :: r).getD (argminIdx (b :: r)) 0
      · have hidx : argminIdx (a :: b :: r) = 0 := by
          show (if a ≤ (b :: r).getD (argminIdx (b :: r)) 0 then 0
                else argminIdx (b :: r) + 1) = 0
          rw [if_pos hle]
        rw [hidx] at hj
        exact absurd hj (Nat.not_lt_zero j)
      · have hidx : argminIdx (a :: b :: r) = argminIdx (b :: r) + 1 := by
          show (if a ≤ (b :: r).getD (argminIdx (b :: r)) 0 then 0
                else argminIdx (b :: r) + 1) = argminIdx (b :: r) + 1
          rw [if_neg hle]
        rw [hidx] at hj ⊢
        cases j with
        | zero =>
          rw [List.getD_cons_succ, List.getD_cons_zero]
          omega
        | succ k =>
          have hk : k < argminIdx (b :: r) := by omega
          rw [List.getD_cons_succ, List.getD_cons_succ]
          exact ih k hk

theorem getD_map_of_lt (f : α → β) (l : List α) (i : Nat) (hi : i < l.length)
    (d : β) (d2 : α) : (l.map f).getD i d = f (l.getD i d2) := by
  induction l generalizing i with
  | nil => simp at hi
  | cons a t ih =>
    cases i with
    | zero => simp
    | succ k =>
      have hk : k < t.length := by simpa using hi
      simpa using ih k hk

theorem getD_mem_of_lt (l : List α) (i : Nat) (hi : i < l.length) (d : α) :
    l.getD i d ∈ l := by
  induction l generalizing i with
  | nil => simp at hi
  | cons a t ih =>
    cases i with
    | zero => simp
    | succ k =>
      have hk : k < t.length := by simpa using hi
      rw [List.getD_cons_succ]
      exact List.mem_cons_of_mem a (ih k hk)

theorem find_mid_adaptor_unfold (alignFn : List Char → List Char → AlignResult)
    (seq : List Char) (targets : List (List Char)) :
    find_mid_adaptor alignFn seq targets =
      (if ((fma_results alignFn seq targets).getD (fma_index alignFn seq targets)
            ⟨0, none, []⟩).cigar.isSome
       then { (fma_results alignFn seq targets).getD (fma_index alignFn seq targets)
                ⟨0, none, []⟩ with
              locations := ((fma_results alignFn seq targets).getD
                (fma_index alignFn seq targets) ⟨0, none, []⟩).locations.map
                (fun p => (p.1 + 200, p.2 + 200)) }
       else (fma_results alignFn seq targets).getD (fma_index alignFn seq targets)
              ⟨0, none, []⟩) := rfl

/-- Claim C5: for a non-empty target set, `find_mid_adaptor` returns the
result of the motif with the globally minimum edit distance, selecting the
first motif in target order when several tie for the minimum (every earlier
motif has a strictly larger edit distance), with every (start, end) offset
re-expressed in full-read coordinates by adding the 200-base trim margin to
both components (given that the primitive reports an alignment path for
every motif, as `task="path"` does). -/
theorem c5_find_mid_adaptor (alignFn : List Char → List Char → AlignResult)
    (seq : List Char) (targets : List (List Char)) (hne : targets ≠ [])
    (hcig : ∀ t ∈ targets, (alignFn t (pySlice seq 200 (-200))).cigar.isSome) :
    ∃ i : Nat, i < targets.length ∧
      (∀ j : Nat, j < targets.length →
        (alignFn (targets.getD i []) (pySlice seq 200 (-200))).editDistance ≤
        (alignFn (targets.getD j []) (pySlice seq 200 (-200))).editDistance) ∧
      (∀ j : Nat, j < i →
        (alignFn (targets.getD i []) (pySlice seq 200 (-200))).editDistance <
        (alignFn (targets.getD j []) (pySlice seq 200 (-200))).editDistance) ∧
      find_mid_adaptor alignFn seq targets =
        { alignFn (targets.getD i []) (pySlice seq 200 (-200)) with
          locations := (alignFn (targets.getD i [])
            (pySlice seq 200 (-200))).locations.map
            (fun p => (p.1 + 200, p.2 + 200)) } := by
  have hlen : (fma_results alignFn seq targets).length = targets.length := by
    simp [fma_results]
  have hlen2 : ((fma_results alignFn seq targets).map (fun r => r.editDistance)).length
      = targets.length := by simp [fma_results]
  have hedsne : (fma_results alignFn seq targets).map (fun r => r.editDistance) ≠ [] := by
    intro hnil
    apply hne
    have := congrArg List.length hnil
    rw [hlen2] at this
    exact List.eq_nil_of_length_eq_zero this
  have hilt : fma_index alignFn seq targets < targets.length := by
    rw [← hlen2]
    exact argminIdx_lt _ hedsne
  have hkey : ∀ j, j < targets.length →
      (fma_results alignFn seq targets).getD j ⟨0, none, []⟩ =
        alignFn (targets.getD j []) (pySlice seq 200 (-200)) := by
    intro j hj
    exact getD_map_of_lt _ targets j hj _ []
  have hed : ∀ j, j < targets.length →
      ((fma_results alignFn seq targets).map (fun r => r.editDistance)).getD j 0 =
        (alignFn (targets.getD j []) (pySlice seq 200 (-200))).editDistance := by
    intro j hj
    rw [getD_map_of_lt _ (fma_results alignFn seq targets) j (by rw [hlen]; exact hj)
      0 ⟨0, none, []⟩, hkey j hj]
  have hfold : argminIdx ((fma_results alignFn seq targets).map (fun r => r.editDistance))
      = fma_index alignFn seq targets := rfl
  refine ⟨fma_index alignFn seq targets, hilt, ?_, ?_, ?_⟩
  · intro j hj
    have h := argminIdx_le ((fma_results alignFn seq targets).map (fun r => r.editDistance))
      j (by rw [hlen2]; exact hj)
    rw [hfold, hed _ hilt, hed j hj] at h
    exact h
  · intro j hj
    have hjt : j < targets.length := lt_trans hj hilt
    have h := argminIdx_first ((fma_results alignFn seq targets).map (fun r => r.editDistance))
      j (by rw [hfold]; exact hj)
    rw [hfold, hed _ hilt, hed j hjt] at h
    exact h
  · have hsome : ((fma_results alignFn seq targets).getD (fma_index alignFn seq targets)
        ⟨0, none, []⟩).cigar.isSome := by
      rw [hkey _ hilt]
      exact hcig _ (getD_mem_of_lt targets _ hilt [])
    rw [find_mid_adaptor_unfold, if_pos hsome, hkey _ hilt]

/-- Witness for C5: two targets where the second has the strictly smaller
edit distance, so index 1 is selected and its location is shifted by 200. -/
theorem c5_find_mid_adaptor_witness :
    ∃ i : Nat, i < 2 ∧
      (∀ j : Nat, j < 2 →
        ((fun (t _text : List Char) => if t = ['A'] then AlignResult.mk 7 (some ['M']) [(3, 9)]
            else AlignResult.mk 4 (some ['M']) [(5, 10)]) (["A".toList, "C".toList].getD i [])
            (pySlice [] 200 (-200))).editDistance ≤
        ((fun (t _text : List Char) => if t = ['A'] then AlignResult.mk 7 (some ['M']) [(3, 9)]
            else AlignResult.mk 4 (some ['M']) [(5, 10)]) (["A".toList, "C".toList].getD j [])
            (pySlice [] 200 (-200))).editDistance) ∧
      (∀ j : Nat, j < i →
        ((fun (t _text : List Char) => if t = ['A'] then AlignResult.mk 7 (some ['M']) [(3, 9)]
            else AlignResult.mk 4 (some ['M']) [(5, 10)]) (["A".toList, "C".toList].getD i [])
            (pySlice [] 200 (-200))).editDistance <
        ((fun (t _text : List Char) => if t = ['A'] then AlignResult.mk 7 (some ['M']) [(3, 9)]
            else AlignResult.mk 4 (some ['M']) [(5, 10)]) (["A".toList, "C".toList].getD j [])
            (pySlice [] 200 (-200))).editDistance) ∧
      find_mid_adaptor (fun (t _text : List Char) =>
          if t = ['A'] then AlignResult.mk 7 (some ['M']) [(3, 9)]
          else AlignResult.mk 4 (some ['M']) [(5, 10)]) [] ["A".toList, "C".toList] =
        { (fun (t _text : List Char) => if t = ['A'] then AlignResult.mk 7 (some ['M']) [(3, 9)]
            else AlignResult.mk 4 (some ['M']) [(5, 10)]) (["A".toList, "C".toList].getD i [])
            (pySlice [] 200 (-200)) with
          locations := ((fun (t _text : List Char) =>
            if t = ['A'] then AlignResult.mk 7 (some ['M']) [(3, 9)]
            else AlignResult.mk 4 (some ['M']) [(5, 10)]) (["A".toList, "C".toList].getD i [])
            (pySlice [] 200 (-200))).locations.map (fun p => (p.1 + 200, p.2 + 200)) } :=
  c5_find_mid_adaptor
    (fun (t _text : List Char) => if t = ['A'] then AlignResult.mk 7 (some ['M']) [(3, 9)]
      else AlignResult.mk 4 (some ['M']) [(5, 10)])
    [] ["A".toList, "C".toList] (by decide)
    (by intro t ht; fin_cases ht <;> decide)

/-! ### Claim C2: strict threshold comparison -/

/-- Claim C2: the split decision compares the winning edit distance to the
active threshold with strict less-than: a read whose winning edit distance
equals the threshold is written unchanged and recorded as unedited, while a
read one distance unit below the threshold whose resolved location list is a
single pair is split. -/
theorem c2_threshold_strict
    (alignFnEq alignFnLt : List Char → List Char → AlignResult)
    (targets : List (List Char)) (thr : Int) (r : Read)
    (resEq resLt : AlignResult) (s e : Int)
    (h1 : resEq.editDistance = thr)
    (h2 : resLt.editDistance = thr - 1)
    (h3 : deduplicate_locations_first_key resLt.locations = [(s, e)])
    (h4 : find_mid_adaptor alignFnEq r.seq targets = resEq)
    (h5 : find_mid_adaptor alignFnLt r.seq targets = resLt) :
    decideRead thr resEq = some Decision.unedited ∧
    emit r Decision.unedited = [⟨r.id, r.comments, r.seq, r.qual⟩] ∧
    process_file alignFnEq targets thr [r] =
      some ([], [r.id], [], [⟨r.id, r.comments, r.seq, r.qual⟩]) ∧
    decideRead thr resLt = some (Decision.split s e) ∧
    process_file alignFnLt targets thr [r] =
      some ([r.id], [], [],
        [⟨r.id ++ "_1", r.comments, pyTakeTo r.seq s, pyTakeTo r.qual s⟩,
         ⟨r.id ++ "_2", r.comments, pyDropFrom r.seq e, pyDropFrom r.qual e⟩]) := by
  have hdEq : decideRead thr resEq = some Decision.unedited := by
    unfold decideRead
    rw [if_neg (by omega)]
  have hdLt : decideRead thr resLt = some (Decision.split s e) := by
    unfold decideRead
    rw [if_pos (by omega)]
    rw [h3]
    simp
  have hpEq : process_file alignFnEq targets thr [r] =
      some ([], [r.id], [], [⟨r.id, r.comments, r.seq, r.qual⟩]) := by
    simp only [process_file, h4, hdEq]
    rfl
  have hpLt : process_file alignFnLt targets thr [r] =
      some ([r.id], [], [],
        [⟨r.id ++ "_1", r.comments, pyTakeTo r.seq s, pyTakeTo r.qual s⟩,
         ⟨r.id ++ "_2", r.comments, pyDropFrom r.seq e, pyDropFrom r.qual e⟩]) := by
    simp only [process_file, h5, hdLt]
    rfl
  exact ⟨hdEq, rfl, hpEq, hdLt, hpLt⟩

/-- Witness for C2 at threshold 9 with edit distances 9 (kept) and 8
(split at the single resolved location). -/
theorem c2_threshold_strict_witness :
    decideRead 9 ⟨9, none, []⟩ = some Decision.unedited ∧
    decideRead 9 ⟨8, some ['M'], [(205, 210)]⟩ = some (Decision.split 205 210) := by
  have h := c2_threshold_strict (fun _ _ => ⟨9, none, []⟩)
    (fun _ _ => ⟨8, some ['M'], [(5, 10)]⟩)
    [['A']] 9 ⟨"w2", [], [], "c"⟩ ⟨9, none, []⟩ ⟨8, some ['M'], [(205, 210)]⟩ 205 210
    (by decide) (by decide) (by decide) (by decide) (by decide)
  exact ⟨h.1, h.2.2.2.1⟩

/-! ### Claim C4: partition of read ids across the outcome sets -/

theorem perm_insert_first (x : α) {a b c l : List α} (h : (a ++ b ++ c).Perm l) :
    ((x :: a) ++ b ++ c).Perm (x :: l) := by
  show (x :: (a ++ b ++ c)).Perm (x :: l)
  exact h.cons x

theorem perm_insert_second (x : α) {a b c l : List α} (h : (a ++ b ++ c).Perm l) :
    (a ++ (x :: b) ++ c).Perm (x :: l) := by
  have h1 : a ++ (x :: b) ++ c = a ++ x :: (b ++ c) := by simp
  rw [h1]
  refine List.perm_middle.trans ?_
  have h2 : a ++ (b ++ c) = a ++ b ++ c := (List.append_assoc a b c).symm
  rw [h2]
  exact h.cons x

theorem perm_insert_third (x : α) {a b c l : List α} (h : (a ++ b ++ c).Perm l) :
    (a ++ b ++ (x :: c)).Perm (x :: l) := by
  show ((a ++ b) ++ x :: c).Perm (x :: l)
  exact List.perm_middle.trans (h.cons x)

theorem process_file_perm (alignFn : List Char → List Char → AlignResult)
    (targets : List (List Char)) (thr : Int) :
    ∀ (reads : List Read) (e u m : List String) (recs : List Record),
    process_file alignFn targets thr reads = some (e, u, m, recs) →
    (e ++ u ++ m).Perm (reads.map Read.id) := by
  intro reads
  induction reads with
  | nil =>
    intro e u m recs h
    simp only [process_file, Option.some.injEq, Prod.mk.injEq] at h
    obtain ⟨rfl, rfl, rfl, -⟩ := h
    simp
  | cons r rest ih =>
    intro e u m recs h
    simp only [process_file] at h
    cases hd : decideRead thr (find_mid_adaptor alignFn r.seq targets) with
    | none =>
      rw [hd] at h
      simp at h
    | some d =>
      rw [hd] at h
      cases hrest : process_file alignFn targets thr rest with
      | none =>
        rw [hrest] at h
        simp at h
      | some t =>
        obtain ⟨e2, u2, m2, recs2⟩ := t
        rw [hrest] at h
        have hperm := ih e2 u2 m2 recs2 hrest
        cases d with
        | unedited =>
          simp only [Option.some.injEq, Prod.mk.injEq] at h
          obtain ⟨rfl, rfl, rfl, -⟩ := h
          simpa using perm_insert_second r.id hperm
        | ambiguous =>
          simp only [Option.some.injEq, Prod.mk.injEq] at h
          obtain ⟨rfl, rfl, rfl, -⟩ := h
          simpa using perm_insert_third r.id hperm
        | split s e =>
          simp only [Option.some.injEq, Prod.mk.injEq] at h
          obtain ⟨rfl, rfl, rfl, -⟩ := h
          simpa using perm_insert_first r.id hperm

theorem perm_shuffle (a1 b1 c1 a2 b2 c2 : List α) :
    ((a1 ++ a2) ++ (b1 ++ b2) ++ (c1 ++ c2)).Perm
      ((a1 ++ b1 ++ c1) ++ (a2 ++ b2 ++ c2)) := by
  rw [← Multiset.coe_eq_coe]
  simp only [← Multiset.coe_add]
  abel

theorem run_outcomes_perm (alignFn : List Char → List Char → AlignResult)
    (targets : List (List Char)) (thr : Int) :
    ∀ (files : List (List Read)) (e u m : List String),
    run_outcomes alignFn targets thr files = some (e, u, m) →
    (e ++ u ++ m).Perm ((files.flatten).map Read.id) := by
  intro files
  induction files with
  | nil =>
    intro e u m h
    simp only [run_outcomes, Option.some.injEq, Prod.mk.injEq] at h
    obtain ⟨rfl, rfl, rfl⟩ := h
    simp
  | cons f rest ih =>
    intro e u m h
    simp only [run_outcomes] at h
    cases hf : process_file alignFn targets thr f with
    | none =>
      rw [hf] at h
      simp at h
    | some t =>
      obtain ⟨e1, u1, m1, recs1⟩ := t
      rw [hf] at h
      cases hrest : run_outcomes alignFn targets thr rest with
      | none =>
        rw [hrest] at h
        simp at h
      | some t2 =>
        obtain ⟨e2, u2, m2⟩ := t2
        rw [hrest] at h
        simp only [Option.some.injEq, Prod.mk.injEq] at h
        obtain ⟨rfl, rfl, rfl⟩ := h
        have hp1 := process_file_perm alignFn targets thr f e1 u1 m1 recs1 hf
        have hp2 := ih e2 u2 m2 hrest
        have hshuffle := perm_shuffle e1 u1 m1 e2 u2 m2
        refine hshuffle.trans ?_
        have : ((f :: rest).flatten).map Read.id = f.map Read.id ++ (rest.flatten).map Read.id := by
          simp
        rw [this]
        exact hp1.append hp2

/-- Claim C4: after a run over input files whose read ids are unique, the
three outcome sets are pairwise disjoint, their concatenation is a
permutation of the list of all input read ids (each id is placed in exactly
one set, once), and their union is exactly the set of all input read ids. -/
theorem c4_partition (alignFn : List Char → List Char → AlignResult)
    (targets : List (List Char)) (thr : Int) (files : List (List Read))
    (e u m : List String)
    (hids : ((files.flatten).map Read.id).Nodup)
    (hrun : run_outcomes alignFn targets thr files = some (e, u, m)) :
    (e ++ u ++ m).Perm ((files.flatten).map Read.id) ∧
    e.Disjoint u ∧ e.Disjoint m ∧ u.Disjoint m ∧
    (∀ x : String, x ∈ (files.flatten).map Read.id ↔ (x ∈ e ∨ x ∈ u ∨ x ∈ m)) := by
  have hperm := run_outcomes_perm alignFn targets thr files e u m hrun
  have hnodup : (e ++ u ++ m).Nodup := (hperm.nodup_iff).mpr hids
  have h1 := List.nodup_append.mp hnodup
  have h2 := List.nodup_append.mp h1.1
  refine ⟨hperm, h2.2.2, ?_, ?_, ?_⟩
  · intro x hxe hxm
    exact h1.2.2 (List.mem_append_left u hxe) hxm
  · intro x hxu hxm
    exact h1.2.2 (List.mem_append_right e hxu) hxm
  · intro x
    rw [← hperm.mem_iff]
    simp [List.mem_append, or_assoc]

/-- Witness for C4: a single file of two reads, both kept unedited by an
aligner reporting edit distance 1000 against threshold 9. -/
theorem c4_partition_witness :
    ((([] : List String) ++ ["a", "b"] ++ []).Perm
      ((([[⟨"a", [], [], ""⟩, ⟨"b", [], [], ""⟩]] : List (List Read)).flatten).map Read.id)) ∧
    (([] : List String)).Disjoint ["a", "b"] := by
  have h := c4_partition (fun _ _ => ⟨1000, none, []⟩) [['A']] 9
    [[⟨"a", [], [], ""⟩, ⟨"b", [], [], ""⟩]] [] ["a", "b"] []
    (by decide) (by decide)
  exact ⟨h.1, h.2.1⟩

/-! ### Claim C6: spacer construction in junction motifs -/

/-- Claim C6: in every junction motif `build_targets` constructs, the spacer
between the trimmed tail-adapter prefix and the trimmed head-adapter suffix
is a degenerate-N run whose length is the sum of the two trim amounts when
no spacer-length override is given; an explicit `degenerate_bases` value
sets that length instead, and a literal `n_replacement` is used as the
spacer verbatim regardless of its length (for Native and for every PCR
motif alike).  The top-level `split` entry point with its default arguments
always passes the explicit override `mask_size_default_N = 11`, so its
Native motif carries an 11-base N spacer. -/
theorem c6_spacer :
    (∀ (nh nt : Nat) (primers : List (List Char)) (ha ta : List Char),
      (build_targets nh nt none primers ha ta none).native =
        [pyTakeTo ta ((ta.length : Int) - nt) ++ List.replicate (nh + nt) 'N' ++
         pyDropFrom ha (nh : Int)] ∧
      (List.replicate (nh + nt) 'N').length = nh + nt) ∧
    (∀ (nh nt db : Nat) (primers : List (List Char)) (ha ta : List Char),
      (build_targets nh nt (some db) primers ha ta none).native =
        [pyTakeTo ta ((ta.length : Int) - nt) ++ List.replicate db 'N' ++
         pyDropFrom ha (nh : Int)]) ∧
    (∀ (nh nt : Nat) (db : Option Nat) (primers : List (List Char))
        (ha ta rep : List Char),
      (build_targets nh nt db primers ha ta (some rep)).native =
        [pyTakeTo ta ((ta.length : Int) - nt) ++ rep ++ pyDropFrom ha (nh : Int)] ∧
      (∀ mo : List Char, mo ∈ (build_targets nh nt db primers ha ta (some rep)).pcr ↔
        ∃ x ∈ primers, ∃ y ∈ primers,
          mo = rev_comp x ++ pyTakeTo ta (-(nt : Int)) ++ rep ++
               pyDropFrom ha (nh : Int) ++ y)) ∧
    (∀ (nh nt : Nat) (primers : List (List Char)) (ha ta : List Char)
        (mo : List Char),
      mo ∈ (build_targets nh nt none primers ha ta none).pcr ↔
        ∃ x ∈ primers, ∃ y ∈ primers,
          mo = rev_comp x ++ pyTakeTo ta (-(nt : Int)) ++
               List.replicate (nh + nt) 'N' ++ pyDropFrom ha (nh : Int) ++ y) ∧
    split_default_targets.native =
      [pyTakeTo TAIL_ADAPTER ((TAIL_ADAPTER.length : Int) - mask_size_default_tail) ++
       List.replicate mask_size_default_N 'N' ++
       pyDropFrom HEAD_ADAPTER (mask_size_default_head : Int)] := by
  refine ⟨?_, ?_, ?_, ?_, ?_⟩
  · intro nh nt primers ha ta
    exact ⟨rfl, List.length_replicate _ _⟩
  · intro nh nt db primers ha ta
    rfl
  · intro nh nt db primers ha ta rep
    refine ⟨rfl, ?_⟩
    intro mo
    simp only [build_targets, List.mem_flatMap, List.mem_map]
    constructor
    · rintro ⟨x, hx, y, hy, rfl⟩
      exact ⟨x, hx, y, hy, rfl⟩
    · rintro ⟨x, hx, y, hy, rfl⟩
      exact ⟨x, hx, y, hy, rfl⟩
  · intro nh nt primers ha ta mo
    simp only [build_targets, List.mem_flatMap, List.mem_map]
    constructor
    · rintro ⟨x, hx, y, hy, rfl⟩
      exact ⟨x, hx, y, hy, rfl⟩
    · rintro ⟨x, hx, y, hy, rfl⟩
      exact ⟨x, hx, y, hy, rfl⟩
  · rfl

/-- Witness for C6: the Native motif via split's defaults, and the
no-override spacer rule at trim sizes 5 and 14. -/
theorem c6_spacer_witness :
    split_default_targets.native =
      [pyTakeTo TAIL_ADAPTER ((TAIL_ADAPTER.length : Int) - mask_size_default_tail) ++
       List.replicate mask_size_default_N 'N' ++
       pyDropFrom HEAD_ADAPTER (mask_size_default_head : Int)] ∧
    (build_targets 5 14 none [] HEAD_ADAPTER TAIL_ADAPTER none).native =
      [pyTakeTo TAIL_ADAPTER ((TAIL_ADAPTER.length : Int) - 14) ++
       List.replicate (5 + 14) 'N' ++ pyDropFrom HEAD_ADAPTER (5 : Int)] :=
  ⟨c6_spacer.2.2.2.2, (c6_spacer.1 5 14 [] HEAD_ADAPTER TAIL_ADAPTER).1⟩

/-! ### Claim C8: output-directory handling in split -/

/-- Claim C8: when an output directory is requested and already exists,
`split` performs only the file enumeration and then exits with status 1 -
no targets are built and no file is processed; when the requested directory
does not exist, it is created, no exit-1 occurs, targets are built and
every input file is processed. -/
theorem c8_output_dir (files : List String) (d : String) :
    (split_actions files (some d) true = [SAction.listFiles, SAction.exit1] ∧
     SAction.buildTargetsStep ∉ split_actions files (some d) true ∧
     (∀ f : String, SAction.processFileStep f ∉ split_actions files (some d) true)) ∧
    (SAction.mkdirOut d ∈ split_actions files (some d) false ∧
     SAction.exit1 ∉ split_actions files (some d) false ∧
     SAction.buildTargetsStep ∈ split_actions files (some d) false ∧
     (∀ f ∈ files, SAction.processFileStep f ∈ split_actions files (some d) false)) := by
  refine ⟨⟨rfl, ?_, ?_⟩, ?_, ?_, ?_, ?_⟩
  · show SAction.buildTargetsStep ∉ [SAction.listFiles, SAction.exit1]
    simp
  · intro f
    show SAction.processFileStep f ∉ [SAction.listFiles, SAction.exit1]
    simp
  · show SAction.mkdirOut d ∈ SAction.listFiles :: SAction.mkdirOut d ::
      SAction.buildTargetsStep :: (files.map SAction.processFileStep ++ [SAction.summary])
    simp
  · show SAction.exit1 ∉ SAction.listFiles :: SAction.mkdirOut d ::
      SAction.buildTargetsStep :: (files.map SAction.processFileStep ++ [SAction.summary])
    simp
  · show SAction.buildTargetsStep ∈ SAction.listFiles :: SAction.mkdirOut d ::
      SAction.buildTargetsStep :: (files.map SAction.processFileStep ++ [SAction.summary])
    simp
  · intro f hf
    show SAction.processFileStep f ∈ SAction.listFiles :: SAction.mkdirOut d ::
      SAction.buildTargetsStep :: (files.map SAction.processFileStep ++ [SAction.summary])
    simp only [List.mem_cons, List.mem_append, List.mem_map]
    exact Or.inr (Or.inr (Or.inr (Or.inl ⟨f, hf, rfl⟩)))

/-- Witness for C8 at one input file and output directory name "out". -/
theorem c8_output_dir_witness :
    split_actions ["f1"] (some "out") true = [SAction.listFiles, SAction.exit1] ∧
    SAction.mkdirOut "out" ∈ split_actions ["f1"] (some "out") false ∧
    SAction.processFileStep "f1" ∈ split_actions ["f1"] (some "out") false :=
  ⟨(c8_output_dir ["f1"] "out").1.1, (c8_output_dir ["f1"] "out").2.1,
   (c8_output_dir ["f1"] "out").2.2.2.2 "f1" (by decide)⟩

/-! ### Claims C9 and C10: the debug context window -/

theorem take_drop_append (l : List α) (ha hb hc : Nat) (h1 : ha ≤ hb) (h2 : hb ≤ hc) :
    (l.take hb).drop ha ++ (l.take hc).drop hb = (l.take hc).drop ha := by
  have hsplit : l.take hc = l.take hb ++ (l.take hc).drop hb := by
    have h3 : (l.take hc).take hb = l.take hb := by
      rw [List.take_take]
      congr 1
      omega
    conv_lhs => rw [← List.take_append_drop hb (l.take hc)]
    rw [h3]
  have hD : ((l.take hc).drop hb).drop (ha - (l.take hb).length) = (l.take hc).drop hb := by
    by_cases hle : ha ≤ (l.take hb).length
    · have hz : ha - (l.take hb).length = 0 := by omega
      rw [hz, List.drop_zero]
    · have hlen : ((l.take hc).drop hb).length = 0 := by
        rw [List.length_drop, List.length_take]
        rw [List.length_take] at hle
        omega
      have hnil : (l.take hc).drop hb = [] := List.eq_nil_of_length_eq_zero hlen
      rw [hnil]
      simp
  conv_rhs => rw [hsplit]
  rw [List.drop_append_eq_append_drop, hD]

theorem pySlice_append {l : List α} {a b c : Int} (h0 : 0 ≤ a) (hab : a ≤ b)
    (hbc : b ≤ c) (hc : c ≤ (l.length : Int)) :
    pySlice l a b ++ pySlice l b c = pySlice l a c := by
  rw [pySlice_eq h0 (le_trans hbc hc) hab, pySlice_eq (le_trans h0 hab) hc hbc,
    pySlice_eq h0 hc (le_trans hab hbc)]
  exact take_drop_append l a.toNat b.toNat c.toNat (by omega) (by omega)

/-- Counterexample to claim C9 as stated: at a read of 120 bases with match
offsets (110, 114), matchlen // 2 = 2, yet the left context written by
`write_match_to_fasta` has 98 bases, not at most min(matchlen/2, 100) = 2. -/
theorem c9_window_counterexample :
    (wmf_left (List.replicate 120 'A') 110 114).length = 98 ∧
    ¬ ((wmf_left (List.replicate 120 'A') 110 114).length ≤
        min (wmf_matchlen_half 110 114).toNat 100) := by decide

/-- Claim C9 (amended): for a Split with offsets (start, end) and
matchlen = end - start, whenever the window fits inside the read
(matchlen//2 ≤ 100, start + matchlen//2 ≥ 100 and
end - matchlen//2 + 100 ≤ L), the debug record consists of a left context
of exactly 100 - matchlen//2 bases immediately before start (not
min(matchlen/2, 100) of them), the matched span itself, and a symmetric
right context of 100 - matchlen//2 bases after end - together the
contiguous slice from start + matchlen//2 - 100 to end - matchlen//2 + 100 -
and a record is written exactly when the assembled window is non-empty. -/
theorem c9_window (seq : List Char) (s e : Int)
    (h0 : 0 ≤ s) (h1 : s ≤ e) (h2 : e ≤ (seq.length : Int))
    (h4 : (100 : Int) ≤ s + wmf_matchlen_half s e)
    (h5 : e - wmf_matchlen_half s e + 100 ≤ (seq.length : Int))
    (h6 : wmf_matchlen_half s e ≤ 100) :
    (wmf_left seq s e).length = ((100 : Int) - wmf_matchlen_half s e).toNat ∧
    (wmf_right seq s e).length = ((100 : Int) - wmf_matchlen_half s e).toNat ∧
    wmf_left seq s e ++ wmf_mid seq s e ++ wmf_right seq s e =
      pySlice seq (s + wmf_matchlen_half s e - 100)
        (e - wmf_matchlen_half s e + 100) ∧
    (∀ w : List Char, write_match_to_fasta seq s e = some w →
      w = wmf_left seq s e ++ wmf_mid seq s e ++ wmf_right seq s e ∧ w ≠ []) ∧
    (write_match_to_fasta seq s e = none →
      wmf_left seq s e ++ wmf_mid seq s e ++ wmf_right seq s e = []) := by
  have hhalf0 : 0 ≤ wmf_matchlen_half s e := by
    unfold wmf_matchlen_half pyFloorDiv
    exact Int.fdiv_nonneg (by omega) (by omega)
  have hlen_slice : ∀ (a b : Int), 0 ≤ a → a ≤ b → b ≤ (seq.length : Int) →
      (pySlice seq a b).length = (b - a).toNat := by
    intro a b ha hab hb
    rw [pySlice_eq ha hb hab, List.length_drop, List.length_take]
    omega
  refine ⟨?_, ?_, ?_, ?_, ?_⟩
  · unfold wmf_left
    rw [hlen_slice _ _ (by omega) (by omega) (by omega)]
    omega
  · unfold wmf_right
    rw [hlen_slice _ _ (by omega) (by omega) (by omega)]
    omega
  · unfold wmf_left wmf_mid wmf_right
    rw [pySlice_append (by omega) (by omega) h1 h2,
      pySlice_append (by omega) (by omega) (by omega) (by omega)]
  · intro w hw
    simp only [write_match_to_fasta] at hw
    split at hw
    · next hpos =>
      obtain rfl := Option.some.inj hw
      exact ⟨rfl, List.ne_nil_of_length_pos hpos⟩
    · exact absurd hw (by simp)
  · intro hnone
    simp only [write_match_to_fasta] at hnone
    split at hnone
    · exact absurd hnone (by simp)
    · next hneg => exact List.eq_nil_of_length_eq_zero (by omega)

/-- Witness for the amended C9 at a 220-base read with offsets (105, 115). -/
theorem c9_window_witness :
    (wmf_left (List.replicate 220 'A') 105 115).length =
      ((100 : Int) - wmf_matchlen_half 105 115).toNat ∧
    (wmf_right (List.replicate 220 'A') 105 115).length =
      ((100 : Int) - wmf_matchlen_half 105 115).toNat := by
  have h := c9_window (List.replicate 220 'A') 105 115 (by decide) (by decide)
    (by decide) (by decide) (by decide) (by decide)
  exact ⟨h.1, h.2.1⟩

/-- Counterexample to claim C10 as stated: the claim asserts that whenever
start + (end-start)//2 < 100 the left context is taken from near the end of
the sequence or is empty, instead of being the bases immediately preceding
start.  On a 24-base sequence with start = end = 20 the negative bound
clamps to 0 and the left context is exactly the (clamped) bases immediately
preceding start. -/
theorem c10_negative_bound_counterexample :
    ¬ (∀ (seq : List Char) (s e : Int), 0 ≤ s → s ≤ e → e ≤ (seq.length : Int) →
        s + wmf_matchlen_half s e < 100 →
        wmf_left seq s e ≠ wmf_intended_left seq s e) := by
  intro hclaim
  exact hclaim (List.replicate 24 'A') 20 20 (by decide) (by decide) (by decide)
    (by decide) (by decide)

/-- Claim C10 (amended): whenever start + (end-start)//2 < 100 the
left-context slice bound start + matchlen//2 - 100 is negative; on any
sequence of length at least 100 - matchlen//2 Python's negative indexing
then makes the left context empty instead of the (non-empty, when
0 < start) bases immediately preceding start, so the debug window is not
the intended region there; on shorter sequences the negative bound clamps
to index 0 and the left context can coincide with the intended prefix. -/
theorem c10_negative_bound (seq : List Char) (s e : Int)
    (h0 : 0 ≤ s) (h1 : s ≤ e) (h2 : e ≤ (seq.length : Int))
    (hpre : s + wmf_matchlen_half s e < 100)
    (hlen : (100 : Int) - wmf_matchlen_half s e ≤ (seq.length : Int)) :
    s + wmf_matchlen_half s e - 100 < 0 ∧
    wmf_left seq s e = [] ∧
    (0 < s → wmf_intended_left seq s e ≠ []) := by
  have hhalf0 : 0 ≤ wmf_matchlen_half s e := by
    unfold wmf_matchlen_half pyFloorDiv
    exact Int.fdiv_nonneg (by omega) (by omega)
  refine ⟨by omega, ?_, ?_⟩
  · unfold wmf_left pySlice
    have hlo : pyBound seq.length (s + wmf_matchlen_half s e - 100) =
        ((seq.length : Int) + (s + wmf_matchlen_half s e - 100)).toNat :=
      pyBound_of_neg (by omega)
    have hhi : pyBound seq.length s = min s.toNat seq.length := pyBound_of_nonneg h0
    have hz : ((seq.take (pyBound seq.length s)).drop
        (pyBound seq.length (s + wmf_matchlen_half s e - 100))).length = 0 := by
      rw [List.length_drop, List.length_take, hhi, hlo]
      omega
    exact List.eq_nil_of_length_eq_zero hz
  · intro hs
    unfold wmf_intended_left pySlice
    have hmax : max (0 : Int) (s + wmf_matchlen_half s e - 100) = 0 := by omega
    rw [hmax]
    have hb0 : pyBound seq.length 0 = 0 := by
      rw [pyBound_of_nonneg le_rfl]
      simp
    rw [hb0, List.drop_zero]
    have hpos : 0 < (seq.take (pyBound seq.length s)).length := by
      rw [List.length_take, pyBound_of_nonneg h0]
      omega
    exact List.ne_nil_of_length_pos hpos

/-- Witness for the amended C10 at a 150-base read with start = end = 20. -/
theorem c10_negative_bound_witness :
    (20 : Int) + wmf_matchlen_half 20 20 - 100 < 0 ∧
    wmf_left (List.replicate 150 'A') 20 20 = [] ∧
    wmf_intended_left (List.replicate 150 'A') 20 20 ≠ [] := by
  have h := c10_negative_bound (List.replicate 150 'A') 20 20 (by decide) (by decide)
    (by decide) (by decide) (by decide)
  exact ⟨h.1, h.2.1, h.2.2 (by decide)⟩
